import Mathlib

/-!
Shallow embedding of fio's libaio engine (src/engines/libaio.c) and proofs of
the specified properties of its ring buffer, submitter, completion reaper and
completion mapper.  Machine integers are modelled as `Nat`/`Int`; the kernel
environment (results of `io_submit`, `io_getevents`, the shared completion
ring, wall-clock readings) is passed in explicitly as traces.
-/

set_option maxHeartbeats 1000000

namespace Libaio

/-- Modelled from the spec: I/O direction of a Request (`read|write|sync|trim`);
the enum constants come from fio's io_ddir.h, which is not under src/. -/
inductive DDir
  | DDIR_READ
  | DDIR_WRITE
  | DDIR_SYNC
  | DDIR_DATASYNC
  | DDIR_SYNC_FILE_RANGE
  | DDIR_TRIM
deriving DecidableEq, Repr

/-- Modelled from the spec: `ddir_sync` (fio.h, not under src/) recognizes the
flush-like directions that must be serialized against asynchronous I/O. -/
def ddir_sync : DDir → Bool
  | .DDIR_SYNC => true
  | .DDIR_DATASYNC => true
  | .DDIR_SYNC_FILE_RANGE => true
  | _ => false

/-- Return status of the engine's enqueue operation (`enum fio_q_status`). -/
inductive FioQStatus
  | FIO_Q_COMPLETED
  | FIO_Q_QUEUED
  | FIO_Q_BUSY
deriving DecidableEq, Repr

/-- What an enqueue slot stores: either the io_u index cast to a pointer
(user-mapped iocb mode) or the address of the io_u's embedded iocb. -/
inductive IocbRef
  | userIndex (i : Nat)
  | iocbOf (i : Nat)
deriving DecidableEq, Repr

/-- External side effects performed synchronously by the engine, recorded as
an action log (`do_io_u_sync`, `do_io_u_trim`, submit/complete accounting). -/
inductive EngAction
  | doSync
  | doTrim
  | markSubmit (n : Nat)
  | markComplete (n : Nat)
deriving DecidableEq, Repr

/-- A Request as the engine sees it: its stable index, direction, requested
transfer length, and the result fields the completion mapper writes. -/
structure IoU where
  index : Nat
  ddir : DDir
  xfer_buflen : Nat
  error : Int
  resid : Nat
deriving DecidableEq, Repr

/-- One kernel completion record (`struct io_event`): opaque originator tag
and the raw (unsigned) result. -/
structure EventRec where
  obj : Nat
  res : Nat
deriving DecidableEq, Repr

/-- The kernel's shared completion ring (`struct aio_ring`), read directly by
the userspace-reap fast path. -/
structure AioRing where
  nr : Nat
  head : Nat
  tail : Nat
  magic : Nat
  events : Nat → EventRec

/-- Engine-private state (`struct libaio_data`): the submission ring buffer
counters plus the per-slot descriptor arrays, and the kernel context's shared
ring (reachable through `aio_ctx`). -/
structure LibaioData where
  is_pow2 : Bool
  entries : Nat
  queued : Nat
  head : Nat
  tail : Nat
  iocbs : Nat → Option IocbRef
  io_us : Nat → Option Nat
  ring : AioRing

/-- Engine options (`struct libaio_options`). -/
structure LibaioOptions where
  userspace_reap : Nat
  hipri : Bool
  useriocb : Bool
  fixedbufs : Bool
deriving DecidableEq, Repr

/-- The slice of `struct thread_data` the engine reads: configured iodepth,
the batch-completion threshold, the options and the engine data. -/
structure ThreadData where
  o_iodepth : Nat
  o_batch_complete_min : Nat
  eo : LibaioOptions
  ld : LibaioData

/-- Pointwise array update used to model stores into the per-slot arrays. -/
def setSlot {A : Type} (f : Nat → Option A) (i : Nat) (v : Option A) : Nat → Option A :=
  fun j => if j = i then v else f j

/-- Ring index increment (`ring_inc`): AND with `entries - 1` on the
power-of-two fast path, modulus otherwise. -/
def ring_inc (ld : LibaioData) (val add : Nat) : Nat :=
  if ld.is_pow2 then (val + add) &&& (ld.entries - 1)
  else (val + add) % ld.entries

/-- Modelled from the spec: power-of-two test from lib/pow2.h (not under
src/): `v != 0 && (v & (v - 1)) == 0`. -/
def is_power_of_2 (v : Nat) : Bool :=
  (v != 0) && ((v &&& (v - 1)) == 0)

/-- Result of the enqueue operation: status, next engine state, and the log of
synchronous external actions performed during the call. -/
structure QueueOut where
  status : FioQStatus
  td : ThreadData
  acts : List EngAction

/-- The enqueue operation (`fio_libaio_queue`): full ring is Busy; sync/trim
are accepted only on an empty ring and complete inline; otherwise the
descriptor is stored at `head`, `head` advances by one and `queued` grows. -/
def fio_libaio_queue (td : ThreadData) (io_u : IoU) : QueueOut :=
  let ld := td.ld
  if ld.queued = td.o_iodepth then ⟨.FIO_Q_BUSY, td, []⟩
  else if ddir_sync io_u.ddir then
    if ld.queued ≠ 0 then ⟨.FIO_Q_BUSY, td, []⟩
    else ⟨.FIO_Q_COMPLETED, td, [.doSync]⟩
  else if io_u.ddir = .DDIR_TRIM then
    if ld.queued ≠ 0 then ⟨.FIO_Q_BUSY, td, []⟩
    else ⟨.FIO_Q_COMPLETED, td, [.doTrim, .markSubmit 1, .markComplete 1]⟩
  else
    let ref : IocbRef :=
      if td.eo.useriocb then .userIndex io_u.index else .iocbOf io_u.index
    let ld1 : LibaioData :=
      { ld with
        iocbs := setSlot ld.iocbs ld.head (some ref),
        io_us := setSlot ld.io_us ld.head (some io_u.index),
        head := ring_inc ld ld.head 1,
        queued := ld.queued + 1 }
    ⟨.FIO_Q_QUEUED, { td with ld := ld1 }, []⟩

/-- Enqueue a whole sequence of requests, keeping only the state. -/
def fio_libaio_queue_seq (td : ThreadData) : List IoU → ThreadData
  | [] => td
  | u :: us => fio_libaio_queue_seq (fio_libaio_queue td u).td us

/-- Errno constant. -/
def EINTR : Int := 4

/-- Errno constant. -/
def EAGAIN : Int := 11

/-- Errno constant. -/
def ENOMEM : Int := 12

/-- One `io_submit` attempt as recorded by the submit loop: the ring counters
at the time of the attempt, the batch length passed to the kernel, and the
kernel's reply. -/
structure SubmitAttempt where
  queuedAt : Nat
  tailAt : Nat
  nr : Nat
  res : Int
deriving DecidableEq, Repr

/-- Outcome of a commit run: the returned value, the final state, the total
number of descriptors successfully submitted, the log of submission attempts,
whether the loop finished before the environment trace ran out, and whether
every positive kernel reply was bounded by the batch length it answered. -/
structure CommitOut where
  ret : Int
  td : ThreadData
  submitted : Nat
  log : List SubmitAttempt
  finished : Bool
  valid : Bool

/-- State change of a successful partial submission: `ld->queued -= ret` and
`ring_inc(ld, &ld->tail, ret)`. -/
def advance (td : ThreadData) (n : Nat) : ThreadData :=
  { td with ld := { td.ld with queued := td.ld.queued - n, tail := ring_inc td.ld td.ld.tail n } }

/-- The submit loop body of `fio_libaio_commit`, driven by an environment
trace of (io_submit result, current wall-clock ms) pairs; `ws` models the
`wait_start`/`ts` stall timer. -/
def commit_loop (td : ThreadData) (trace : List (Int × Nat)) (ws : Option Nat) : CommitOut :=
  match trace with
  | [] => ⟨0, td, 0, [], false, true⟩
  | (r, now) :: rest =>
    let ld := td.ld
    let nr : Nat := min ld.queued (ld.entries - ld.tail)
    let att : SubmitAttempt := ⟨ld.queued, ld.tail, nr, r⟩
    if 0 < r then
      let n := r.toNat
      let td1 : ThreadData := advance td n
      if td1.ld.queued ≠ 0 then
        let out := commit_loop td1 rest none
        ⟨out.ret, out.td, n + out.submitted, att :: out.log, out.finished,
          decide (n ≤ nr) && out.valid⟩
      else ⟨0, td1, n, [att], true, decide (n ≤ nr)⟩
    else if r = 0 ∨ r = -EINTR then
      if ld.queued ≠ 0 then
        let out := commit_loop td rest none
        ⟨out.ret, out.td, out.submitted, att :: out.log, out.finished, out.valid⟩
      else ⟨r, td, 0, [att], true, true⟩
    else if r = -EAGAIN then
      if ld.queued ≠ 0 then ⟨0, td, 0, [att], true, true⟩
      else if ws.isNone then
        -- wait_start is recorded, but `continue` re-tests `while (ld->queued)`
        -- with queued == 0, so the loop exits returning -EAGAIN at once.
        ⟨-EAGAIN, td, 0, [att], true, true⟩
      else if 30000 < now - ws.getD 0 then
        -- the 30-second stall check: log the stall and break with -EAGAIN
        ⟨-EAGAIN, td, 0, [att], true, true⟩
      else
        -- usleep(1) then `continue`, which exits as queued == 0
        ⟨-EAGAIN, td, 0, [att], true, true⟩
    else if r = -ENOMEM then
      ⟨if ld.queued ≠ 0 then 0 else r, td, 0, [att], true, true⟩
    else ⟨r, td, 0, [att], true, true⟩

/-- The commit operation (`fio_libaio_commit`): a no-op returning success when
nothing is queued, else the submit loop. -/
def fio_libaio_commit_run (td : ThreadData) (trace : List (Int × Nat)) : CommitOut :=
  if td.ld.queued = 0 then ⟨0, td, 0, [], true, true⟩
  else commit_loop td trace none

/-- Recognized magic of the kernel's shared completion ring. -/
def AIO_RING_MAGIC : Nat := 0xa10a10a1

/-- Direct user-space reap (`user_io_getevents`): copy completion slots while
the shared head differs from the shared tail, advancing the head by one modulo
the ring size after each slot, up to `mx` records.  The `read_barrier()` of
the source is a no-op in this sequential model. -/
def user_io_getevents (ring : AioRing) (mx : Nat) : List EventRec × AioRing :=
  match mx with
  | 0 => ([], ring)
  | m + 1 =>
    if ring.head = ring.tail then ([], ring)
    else
      let e := ring.events ring.head
      let ring1 : AioRing := { ring with head := (ring.head + 1) % ring.nr }
      let out := user_io_getevents ring1 m
      (e :: out.1, out.2)

/-- Environment for one iteration of the reap loop: the `io_getevents` result
used when the blocking path is taken, and the `io_submit` trace consumed if
this iteration flushes queued submissions. -/
structure GetevIn where
  r : Int
  commitTrace : List (Int × Nat)

/-- Observable steps of one reap-loop iteration. -/
inductive GetevStep
  | direct (got : Nat)
  | blocking (amin : Nat) (r : Int)
  | flush
  | sleepUs (n : Nat)
deriving DecidableEq, Repr

/-- Outcome of a reap run: returned value, accumulated event count, final
state, step log, whether the loop finished within the trace, and the result
of the last retrieval attempt. -/
structure GetevOut where
  ret : Int
  events : Nat
  td : ThreadData
  log : List GetevStep
  finished : Bool
  lastr : Int

/-- The actual minimum passed to the blocking retrieval:
`td->o.iodepth_batch_complete_min == 0 ? 0 : min`. -/
def actual_min (td : ThreadData) (mn : Nat) : Nat :=
  if td.o_batch_complete_min = 0 then 0 else mn

/-- The gate of the userspace-reap fast path: option enabled, actual minimum
zero, and the shared ring carries the recognized magic. -/
def reap_cond (td : ThreadData) (mn : Nat) : Bool :=
  (td.eo.userspace_reap == 1) && (actual_min td mn == 0) &&
    (td.ld.ring.magic == AIO_RING_MAGIC)

/-- Store back the shared ring after a direct read advanced its head. -/
def set_ring (td : ThreadData) (rg : AioRing) : ThreadData :=
  { td with ld := { td.ld with ring := rg } }

/-- The reap loop of `fio_libaio_getevents`: pick the direct ring read when
userspace reaping is on, the actual minimum is zero and the ring magic is
recognized, else the blocking call; accumulate positive results; flush (and
maybe briefly sleep) on zero-with-min or would-block; retry on interruption;
stop on any other negative result; repeat while below `mn`. -/
def getevents_loop (td : ThreadData) (mn mx : Nat) (ins : List GetevIn)
    (events : Nat) : GetevOut :=
  match ins with
  | [] => ⟨0, events, td, [], false, 0⟩
  | i :: rest =>
    let amin : Nat := actual_min td mn
    let reap : Bool := reap_cond td mn
    let dr := user_io_getevents td.ld.ring mx
    let r : Int := if reap then (dr.1.length : Int) else i.r
    let td1 : ThreadData := if reap then set_ring td dr.2 else td
    let step0 : GetevStep := if reap then .direct dr.1.length else .blocking amin i.r
    if 0 < r then
      let ev1 := events + r.toNat
      if ev1 < mn then
        let out := getevents_loop td1 mn mx rest ev1
        ⟨out.ret, out.events, out.td, step0 :: out.log, out.finished, out.lastr⟩
      else ⟨(ev1 : Int), ev1, td1, [step0], true, r⟩
    else if (mn ≠ 0 ∧ r = 0) ∨ r = -EAGAIN then
      let td2 := (fio_libaio_commit_run td1 i.commitTrace).td
      let steps : List GetevStep :=
        if amin ≠ 0 then [step0, .flush, .sleepUs 10] else [step0, .flush]
      if events < mn then
        let out := getevents_loop td2 mn mx rest events
        ⟨out.ret, out.events, out.td, steps ++ out.log, out.finished, out.lastr⟩
      else ⟨if r < 0 then r else (events : Int), events, td2, steps, true, r⟩
    else if r ≠ -EINTR then
      ⟨if r < 0 then r else (events : Int), events, td1, [step0], true, r⟩
    else
      if events < mn then
        let out := getevents_loop td1 mn mx rest events
        ⟨out.ret, out.events, out.td, step0 :: out.log, out.finished, out.lastr⟩
      else ⟨if r < 0 then r else (events : Int), events, td1, [step0], true, r⟩

/-- The reap operation (`fio_libaio_getevents`), entered with zero events
accumulated. -/
def fio_libaio_getevents_run (td : ThreadData) (mn mx : Nat) (ins : List GetevIn) : GetevOut :=
  getevents_loop td mn mx ins 0

/-- Two's-complement reinterpretation of a 64-bit unsigned value as a 32-bit
signed `int`, as happens when `-ev->res` is stored into `io_u->error`. -/
def to_int32 (x : Nat) : Int :=
  let r : Nat := x % 2 ^ 32
  if r < 2 ^ 31 then (r : Int) else (r : Int) - 2 ^ 32

/-- Unsigned 64-bit negation, modelling `-ev->res` on `unsigned long`. -/
def neg_u64 (x : Nat) : Nat :=
  (2 ^ 64 - x % 2 ^ 64) % 2 ^ 64

/-- Encoding of a signed kernel completion result into the unsigned `res`
field of `struct io_event`. -/
def encode_res (r : Int) : Nat :=
  (r % (2 ^ 64 : Int)).toNat

/-- The completion mapper's result computation (`fio_libaio_event`): compare
the reported (unsigned) transfer against the requested length, setting the
error on overflow/negative results, the residual on short transfers, and
clearing the error on exact transfers. -/
def fio_libaio_event (ev_res : Nat) (io_u : IoU) : IoU :=
  if ev_res ≠ io_u.xfer_buflen then
    if io_u.xfer_buflen < ev_res then
      { io_u with error := to_int32 (neg_u64 ev_res) }
    else
      { io_u with resid := io_u.xfer_buflen - ev_res }
  else
    { io_u with error := 0 }

/-- Engine data allocation (`fio_libaio_init`): `entries`-sized arrays, the
power-of-two flag, and all counters at zero.  The kernel ring is part of the
environment. -/
def fio_libaio_init (iodepth batch_min : Nat) (o : LibaioOptions) (ring : AioRing) : ThreadData :=
  { o_iodepth := iodepth,
    o_batch_complete_min := batch_min,
    eo := o,
    ld :=
      { is_pow2 := is_power_of_2 iodepth,
        entries := iodepth,
        queued := 0,
        head := 0,
        tail := 0,
        iocbs := fun _ => none,
        io_us := fun _ => none,
        ring := ring } }

/-- Fallback context creation (`fio_libaio_old_queue_init`): any requested
feature flag is rejected with a capability error before `io_queue_init`. -/
def fio_libaio_old_queue_init (hipri useriocb fixedbufs : Bool) (io_queue_init_res : Int) : Int :=
  if hipri then 1
  else if useriocb then 1
  else if fixedbufs then 1
  else io_queue_init_res

/-- Context creation (`fio_libaio_queue_init`): try the flag-carrying setup
syscall when the platform has it (`setup2_res = some r`, with `r = 0` meaning
the kernel honored the flags), falling back to the old path otherwise. -/
def fio_libaio_queue_init (setup2_res : Option Int) (hipri useriocb fixedbufs : Bool)
    (io_queue_init_res : Int) : Int :=
  match setup2_res with
  | some r =>
    if r = 0 then 0
    else fio_libaio_old_queue_init hipri useriocb fixedbufs io_queue_init_res
  | none => fio_libaio_old_queue_init hipri useriocb fixedbufs io_queue_init_res

/-- Post-initialization (`fio_libaio_post_init`): a nonzero context-creation
result is reported as failure (returns 1), success returns 0. -/
def fio_libaio_post_init (o : LibaioOptions) (setup2_res : Option Int)
    (io_queue_init_res : Int) : Int :=
  let err := fio_libaio_queue_init setup2_res o.hipri o.useriocb o.fixedbufs io_queue_init_res
  if err ≠ 0 then 1 else 0

/-- The state invariant maintained by the engine: a positive capacity, both
ring cursors in range, and a truthful power-of-two flag. -/
def LdInv (ld : LibaioData) : Prop :=
  0 < ld.entries ∧ ld.head < ld.entries ∧ ld.tail < ld.entries ∧
    (ld.is_pow2 = true → ∃ k, ld.entries = 2 ^ k)

/-- Concrete shared ring used by the concrete scenarios: 8 slots, 3 pending
completions (head 2, tail 5), recognized magic. -/
def cexRing : AioRing :=
  ⟨8, 2, 5, AIO_RING_MAGIC, fun i => ⟨i, 100⟩⟩

/-- All options off. -/
def plainOpts : LibaioOptions := ⟨0, false, false, false⟩

/-- Userspace reaping enabled. -/
def reapOpts : LibaioOptions := ⟨1, false, false, false⟩

/-- Freshly initialized engine: iodepth 4, batch-completion threshold 0. -/
def tdInit : ThreadData := fio_libaio_init 4 0 plainOpts cexRing

/-- Freshly initialized engine with userspace reaping on. -/
def tdReap : ThreadData := fio_libaio_init 4 0 reapOpts cexRing

/-- A fresh read request of length 4096. -/
def uRead : IoU := ⟨3, .DDIR_READ, 4096, 0, 0⟩

/-- A trim request. -/
def uTrim : IoU := ⟨5, .DDIR_TRIM, 4096, 0, 0⟩

/-- A sync request. -/
def uSync : IoU := ⟨6, .DDIR_SYNC, 4096, 0, 0⟩

/-- Engine with one read queued. -/
def tdOne : ThreadData := (fio_libaio_queue tdInit uRead).td

/-- Engine with its ring full (four reads queued at iodepth 4). -/
def tdFour : ThreadData := fio_libaio_queue_seq tdInit [uRead, uRead, uRead, uRead]

theorem and_pred_self_of_odd {v : Nat} (hodd : v % 2 = 1) : v &&& (v - 1) = v - 1 := by
  apply Nat.eq_of_testBit_eq
  intro i
  cases i with
  | zero =>
    have h0 : (v - 1) % 2 = 0 := by omega
    simp [Nat.testBit_and, Nat.testBit_zero, h0]
  | succ j =>
    have hdiv : v / 2 = (v - 1) / 2 := by omega
    rw [Nat.testBit_and, Nat.testBit_succ, Nat.testBit_succ, hdiv, Bool.and_self]

theorem pow2_of_and_pred_eq_zero : ∀ v : Nat, v ≠ 0 → v &&& (v - 1) = 0 → ∃ k, v = 2 ^ k := by
  intro v
  induction v using Nat.strong_induction_on with
  | _ v ih =>
    intro hv h
    rcases Nat.even_or_odd v with he | ho
    · obtain ⟨m, hm⟩ := he
      have hm2 : v = 2 * m := by omega
      have hmne : m ≠ 0 := by omega
      have hstep : m &&& (m - 1) = 0 := by
        apply Nat.eq_of_testBit_eq
        intro i
        have h1 : Nat.testBit (v &&& (v - 1)) (i + 1) = false := by
          rw [h]; exact Nat.zero_testBit _
        have hvd : v / 2 = m := by omega
        have hvd1 : (v - 1) / 2 = m - 1 := by omega
        rw [Nat.testBit_and, Nat.testBit_succ, Nat.testBit_succ, hvd, hvd1] at h1
        simp [Nat.testBit_and, h1]
      obtain ⟨k, hk⟩ := ih m (by omega) hmne hstep
      exact ⟨k + 1, by rw [pow_succ]; omega⟩
    · have hodd : v % 2 = 1 := Nat.odd_iff.mp ho
      have := and_pred_self_of_odd hodd
      have hv1 : v - 1 = 0 := by omega
      exact ⟨0, by omega⟩

theorem is_power_of_2_spec {v : Nat} (h : is_power_of_2 v = true) : ∃ k, v = 2 ^ k := by
  unfold is_power_of_2 at h
  simp only [Bool.and_eq_true, bne_iff_ne, ne_eq, beq_iff_eq] at h
  exact pow2_of_and_pred_eq_zero v h.1 h.2

theorem ring_inc_lt (ld : LibaioData) (h : 0 < ld.entries) (v a : Nat) :
    ring_inc ld v a < ld.entries := by
  unfold ring_inc
  split
  · exact Nat.lt_of_le_of_lt Nat.and_le_right (by omega)
  · exact Nat.mod_lt _ h

theorem ring_inc_mod (ld : LibaioData) (hp : ld.is_pow2 = true → ∃ k, ld.entries = 2 ^ k)
    (v a : Nat) : ring_inc ld v a = (v + a) % ld.entries := by
  unfold ring_inc
  split
  · next hb =>
    obtain ⟨k, hk⟩ := hp hb
    rw [hk, Nat.and_pow_two_sub_one_eq_mod]
  · rfl

theorem fio_libaio_init_inv (iodepth batch_min : Nat) (o : LibaioOptions) (ring : AioRing)
    (h : 0 < iodepth) : LdInv (fio_libaio_init iodepth batch_min o ring).ld := by
  refine ⟨h, h, h, ?_⟩
  intro hp
  exact is_power_of_2_spec hp

theorem queue_frame (td : ThreadData) (u : IoU) :
    (fio_libaio_queue td u).td.o_iodepth = td.o_iodepth ∧
    (fio_libaio_queue td u).td.o_batch_complete_min = td.o_batch_complete_min ∧
    (fio_libaio_queue td u).td.eo = td.eo ∧
    (fio_libaio_queue td u).td.ld.entries = td.ld.entries ∧
    (fio_libaio_queue td u).td.ld.is_pow2 = td.ld.is_pow2 ∧
    (fio_libaio_queue td u).td.ld.tail = td.ld.tail ∧
    (fio_libaio_queue td u).td.ld.ring = td.ld.ring := by
  simp only [fio_libaio_queue]
  split_ifs <;> simp

theorem queue_queued_le (td : ThreadData) (u : IoU) (h : td.ld.queued ≤ td.o_iodepth) :
    (fio_libaio_queue td u).td.ld.queued ≤ (fio_libaio_queue td u).td.o_iodepth := by
  simp only [fio_libaio_queue]
  split_ifs with h1 h2 h3 h4 h5 <;> simp <;> omega

theorem queue_inv (td : ThreadData) (u : IoU) (h : LdInv td.ld) :
    LdInv (fio_libaio_queue td u).td.ld := by
  obtain ⟨h1, h2, h3, h4⟩ := h
  simp only [fio_libaio_queue]
  split_ifs <;>
    first
      | exact ⟨h1, h2, h3, h4⟩
      | exact ⟨h1, ring_inc_lt _ h1 _ _, h3, h4⟩

theorem queue_seq_spec : ∀ (ios : List IoU) (td : ThreadData),
    td.ld.queued ≤ td.o_iodepth →
    (fio_libaio_queue_seq td ios).o_iodepth = td.o_iodepth ∧
    (fio_libaio_queue_seq td ios).ld.queued ≤ td.o_iodepth := by
  intro ios
  induction ios with
  | nil => exact fun td h => ⟨rfl, h⟩
  | cons u us ih =>
    intro td h
    have hf := (queue_frame td u).1
    have hq := queue_queued_le td u h
    have hrec := ih (fio_libaio_queue td u).td (by omega)
    rw [fio_libaio_queue_seq]
    constructor
    · rw [hrec.1, hf]
    · rw [← hf]; exact hrec.2

theorem commit_loop_frame : ∀ (trace : List (Int × Nat)) (td : ThreadData) (ws : Option Nat),
    (commit_loop td trace ws).td.o_iodepth = td.o_iodepth ∧
    (commit_loop td trace ws).td.o_batch_complete_min = td.o_batch_complete_min ∧
    (commit_loop td trace ws).td.eo = td.eo ∧
    (commit_loop td trace ws).td.ld.entries = td.ld.entries ∧
    (commit_loop td trace ws).td.ld.is_pow2 = td.ld.is_pow2 ∧
    (commit_loop td trace ws).td.ld.head = td.ld.head ∧
    (commit_loop td trace ws).td.ld.iocbs = td.ld.iocbs ∧
    (commit_loop td trace ws).td.ld.io_us = td.ld.io_us ∧
    (commit_loop td trace ws).td.ld.ring = td.ld.ring := by
  intro trace
  induction trace with
  | nil => exact fun td ws => ⟨rfl, rfl, rfl, rfl, rfl, rfl, rfl, rfl, rfl⟩
  | cons p rest ih =>
    intro td ws
    obtain ⟨r, now⟩ := p
    simp only [commit_loop]
    split_ifs <;> first
      | exact ⟨rfl, rfl, rfl, rfl, rfl, rfl, rfl, rfl, rfl⟩
      | exact ih _ none

theorem commit_run_frame (td : ThreadData) (trace : List (Int × Nat)) :
    (fio_libaio_commit_run td trace).td.o_iodepth = td.o_iodepth ∧
    (fio_libaio_commit_run td trace).td.o_batch_complete_min = td.o_batch_complete_min ∧
    (fio_libaio_commit_run td trace).td.eo = td.eo ∧
    (fio_libaio_commit_run td trace).td.ld.entries = td.ld.entries ∧
    (fio_libaio_commit_run td trace).td.ld.is_pow2 = td.ld.is_pow2 ∧
    (fio_libaio_commit_run td trace).td.ld.head = td.ld.head ∧
    (fio_libaio_commit_run td trace).td.ld.iocbs = td.ld.iocbs ∧
    (fio_libaio_commit_run td trace).td.ld.io_us = td.ld.io_us ∧
    (fio_libaio_commit_run td trace).td.ld.ring = td.ld.ring := by
  unfold fio_libaio_commit_run
  split
  · exact ⟨rfl, rfl, rfl, rfl, rfl, rfl, rfl, rfl, rfl⟩
  · exact commit_loop_frame trace td none

theorem commit_loop_inv : ∀ (trace : List (Int × Nat)) (td : ThreadData) (ws : Option Nat),
    LdInv td.ld → LdInv (commit_loop td trace ws).td.ld := by
  intro trace
  induction trace with
  | nil => exact fun td ws h => h
  | cons p rest ih =>
    intro td ws h
    obtain ⟨h1, h2, h3, h4⟩ := h
    obtain ⟨r, now⟩ := p
    simp only [commit_loop]
    split_ifs <;> first
      | exact ⟨h1, h2, h3, h4⟩
      | exact ih _ none ⟨h1, h2, ring_inc_lt _ h1 _ _, h4⟩
      | exact ih _ none ⟨h1, h2, h3, h4⟩
      | exact ⟨h1, h2, ring_inc_lt _ h1 _ _, h4⟩

theorem advance_inv (td : ThreadData) (n : Nat) (h : LdInv td.ld) : LdInv (advance td n).ld :=
  ⟨h.1, h.2.1, ring_inc_lt _ h.1 _ _, h.2.2.2⟩

theorem advance_queued (td : ThreadData) (n : Nat) :
    (advance td n).ld.queued = td.ld.queued - n := rfl

theorem advance_tail (td : ThreadData) (n : Nat) :
    (advance td n).ld.tail = ring_inc td.ld td.ld.tail n := rfl

theorem advance_entries (td : ThreadData) (n : Nat) :
    (advance td n).ld.entries = td.ld.entries := rfl

theorem commit_loop_conserve : ∀ (trace : List (Int × Nat)) (td : ThreadData) (ws : Option Nat),
    (commit_loop td trace ws).valid = true →
    td.ld.queued = (commit_loop td trace ws).td.ld.queued + (commit_loop td trace ws).submitted := by
  intro trace
  induction trace with
  | nil => intro td ws _; rfl
  | cons p rest ih =>
    intro td ws
    obtain ⟨r, now⟩ := p
    simp only [commit_loop]
    split_ifs with hc1 hc2 hc3 hc4 hc5 hc6 hc7 hc8 hc9 hc10 <;> intro hv
    · simp only [Bool.and_eq_true, decide_eq_true_eq] at hv
      have hrec := ih (advance td r.toNat) none hv.2
      simp only [advance_queued] at hrec hc2
      simp only
      omega
    · simp only [decide_eq_true_eq] at hv
      simp only [advance_queued] at hc2 ⊢
      omega
    · have hrec := ih td none (by simpa using hv)
      simp only at hrec ⊢
      omega
    · simp only; omega
    · simp only; omega
    · simp only; omega
    · simp only; omega
    · simp only; omega
    · simp only; omega
    · simp only; omega
    · simp only; omega

theorem commit_loop_tail : ∀ (trace : List (Int × Nat)) (td : ThreadData) (ws : Option Nat),
    LdInv td.ld → (commit_loop td trace ws).valid = true →
    (commit_loop td trace ws).td.ld.tail =
      (td.ld.tail + (commit_loop td trace ws).submitted) % td.ld.entries := by
  intro trace
  induction trace with
  | nil =>
    intro td ws h _
    obtain ⟨h1, h2, h3, h4⟩ := h
    simp only [commit_loop]
    rw [Nat.add_zero, Nat.mod_eq_of_lt h3]
  | cons p rest ih =>
    intro td ws h
    obtain ⟨h1, h2, h3, h4⟩ := h
    obtain ⟨r, now⟩ := p
    have hm0 : (td.ld.tail + 0) % td.ld.entries = td.ld.tail := by
      rw [Nat.add_zero]; exact Nat.mod_eq_of_lt h3
    simp only [commit_loop]
    split_ifs with hc1 hc2 hc3 hc4 hc5 hc6 hc7 hc8 hc9 hc10 <;> intro hv
    · simp only [Bool.and_eq_true, decide_eq_true_eq] at hv
      have hrec := ih (advance td r.toNat) none (advance_inv td r.toNat ⟨h1, h2, h3, h4⟩) hv.2
      simp only [advance_queued, advance_tail, advance_entries] at hrec
      simp only
      rw [hrec, ring_inc_mod _ h4, Nat.mod_add_mod, Nat.add_assoc]
    · simp only [advance_tail]
      exact ring_inc_mod td.ld h4 td.ld.tail r.toNat
    · have hrec := ih td none ⟨h1, h2, h3, h4⟩ (by simpa using hv)
      simp only at hrec ⊢
      exact hrec
    · simp only; exact hm0.symm
    · simp only; exact hm0.symm
    · simp only; exact hm0.symm
    · simp only; exact hm0.symm
    · simp only; exact hm0.symm
    · simp only; exact hm0.symm
    · simp only; exact hm0.symm
    · simp only; exact hm0.symm

theorem commit_loop_log : ∀ (trace : List (Int × Nat)) (td : ThreadData) (ws : Option Nat),
    0 < td.ld.queued → LdInv td.ld →
    ∀ a ∈ (commit_loop td trace ws).log,
      a.nr = min a.queuedAt (td.ld.entries - a.tailAt) ∧
      a.tailAt + a.nr ≤ td.ld.entries ∧ a.tailAt < td.ld.entries ∧ 0 < a.queuedAt := by
  intro trace
  induction trace with
  | nil => intro td ws _ _ a ha; exact absurd ha (List.not_mem_nil a)
  | cons p rest ih =>
    intro td ws hq h
    obtain ⟨h1, h2, h3, h4⟩ := h
    obtain ⟨r, now⟩ := p
    have hatt : min td.ld.queued (td.ld.entries - td.ld.tail) =
          min td.ld.queued (td.ld.entries - td.ld.tail) ∧
        td.ld.tail + min td.ld.queued (td.ld.entries - td.ld.tail) ≤ td.ld.entries ∧
        td.ld.tail < td.ld.entries ∧ 0 < td.ld.queued :=
      ⟨rfl, by omega, h3, hq⟩
    simp only [commit_loop]
    split_ifs with hc1 hc2 hc3 hc4 hc5 hc6 hc7 hc8 hc9 hc10 <;> intro a ha <;>
        simp only at ha <;> rcases List.mem_cons.mp ha with rfl | hmem
    · exact hatt
    · have hrec := ih (advance td r.toNat) none (Nat.pos_of_ne_zero hc2)
        (advance_inv td r.toNat ⟨h1, h2, h3, h4⟩) a hmem
      simpa only [advance_entries] using hrec
    · exact hatt
    · simp at hmem
    · exact hatt
    · exact ih td none (by omega) ⟨h1, h2, h3, h4⟩ a hmem
    · exact hatt
    · simp at hmem
    · exact hatt
    · simp at hmem
    · exact hatt
    · simp at hmem
    · exact hatt
    · simp at hmem
    · exact hatt
    · simp at hmem
    · exact hatt
    · simp at hmem
    · exact hatt
    · simp at hmem
    · exact hatt
    · simp at hmem

theorem uio_frame : ∀ (mx : Nat) (ring : AioRing),
    (user_io_getevents ring mx).2.nr = ring.nr ∧
    (user_io_getevents ring mx).2.tail = ring.tail ∧
    (user_io_getevents ring mx).2.magic = ring.magic ∧
    (user_io_getevents ring mx).2.events = ring.events := by
  intro mx
  induction mx with
  | zero => exact fun ring => ⟨rfl, rfl, rfl, rfl⟩
  | succ m ih =>
    intro ring
    simp only [user_io_getevents]
    split
    · exact ⟨rfl, rfl, rfl, rfl⟩
    · exact ih _

theorem uio_len_le : ∀ (mx : Nat) (ring : AioRing),
    (user_io_getevents ring mx).1.length ≤ mx := by
  intro mx
  induction mx with
  | zero => intro ring; exact Nat.le_refl 0
  | succ m ih =>
    intro ring
    simp only [user_io_getevents]
    split
    · exact Nat.zero_le _
    · simpa using ih _

theorem uio_head_mod : ∀ (mx : Nat) (ring : AioRing), 0 < ring.nr → ring.head < ring.nr →
    (user_io_getevents ring mx).2.head =
      (ring.head + (user_io_getevents ring mx).1.length) % ring.nr := by
  intro mx
  induction mx with
  | zero =>
    intro ring _ hh
    simp only [user_io_getevents, List.length_nil, Nat.add_zero]
    exact (Nat.mod_eq_of_lt hh).symm
  | succ m ih =>
    intro ring hnr hh
    simp only [user_io_getevents]
    split
    · simp only [List.length_nil, Nat.add_zero]
      exact (Nat.mod_eq_of_lt hh).symm
    · have hrec := ih ⟨ring.nr, (ring.head + 1) % ring.nr, ring.tail, ring.magic, ring.events⟩
        hnr (Nat.mod_lt _ hnr)
      simp only at hrec ⊢
      rw [hrec, List.length_cons, Nat.mod_add_mod]
      congr 1
      omega

theorem uio_stop : ∀ (mx : Nat) (ring : AioRing),
    (user_io_getevents ring mx).1.length < mx →
    (user_io_getevents ring mx).2.head = ring.tail := by
  intro mx
  induction mx with
  | zero => intro ring h; exact absurd h (by simp)
  | succ m ih =>
    intro ring h
    simp only [user_io_getevents]
    split
    · next hht => exact hht
    · simp only [user_io_getevents] at h
      split at h
      · omega
      · simp only [List.length_cons] at h
        exact ih _ (by omega)

theorem uio_content : ∀ (mx : Nat) (ring : AioRing), 0 < ring.nr → ring.head < ring.nr →
    (user_io_getevents ring mx).1 =
      (List.range (user_io_getevents ring mx).1.length).map
        (fun j => ring.events ((ring.head + j) % ring.nr)) := by
  intro mx
  induction mx with
  | zero => intro ring _ _; rfl
  | succ m ih =>
    intro ring hnr hh
    simp only [user_io_getevents]
    split
    · rfl
    · have hrec := ih ⟨ring.nr, (ring.head + 1) % ring.nr, ring.tail, ring.magic, ring.events⟩
        hnr (Nat.mod_lt _ hnr)
      simp only at hrec ⊢
      rw [List.length_cons, List.range_succ_eq_map, List.map_cons, List.map_map]
      congr 1
      · rw [Nat.add_zero, Nat.mod_eq_of_lt hh]
      · rw [hrec]
        have hfun : (fun j => ring.events (((ring.head + 1) % ring.nr + j) % ring.nr)) =
            ((fun j => ring.events ((ring.head + j) % ring.nr)) ∘ Nat.succ) := by
          funext j
          simp only [Function.comp_apply, Nat.succ_eq_add_one]
          rw [Nat.mod_add_mod]
          have harg : ring.head + 1 + j = ring.head + (j + 1) := by omega
          rw [harg]
        rw [hfun]
        rw [List.length_map, List.length_range]

theorem actual_min_commit (td : ThreadData) (ct : List (Int × Nat)) (mn : Nat) :
    actual_min (fio_libaio_commit_run td ct).td mn = actual_min td mn := by
  have h := commit_run_frame td ct
  unfold actual_min
  rw [h.2.1]

theorem reap_cond_commit (td : ThreadData) (ct : List (Int × Nat)) (mn : Nat) :
    reap_cond (fio_libaio_commit_run td ct).td mn = reap_cond td mn := by
  have h := commit_run_frame td ct
  unfold reap_cond
  rw [actual_min_commit, h.2.2.1, h.2.2.2.2.2.2.2.2]

theorem actual_min_set_ring (td : ThreadData) (rg : AioRing) (mn : Nat) :
    actual_min (set_ring td rg) mn = actual_min td mn := rfl

theorem reap_cond_set_ring (td : ThreadData) (rg : AioRing) (mn : Nat)
    (hm : rg.magic = td.ld.ring.magic) :
    reap_cond (set_ring td rg) mn = reap_cond td mn := by
  simp only [reap_cond, set_ring, actual_min, hm]
theorem getev_log (mn mx : Nat) : ∀ (ins : List GetevIn) (td : ThreadData) (events : Nat),
    ∀ s ∈ (getevents_loop td mn mx ins events).log,
      (∀ g, s = GetevStep.direct g → reap_cond td mn = true) ∧
      (∀ am rr, s = GetevStep.blocking am rr → reap_cond td mn = false ∧ am = actual_min td mn) ∧
      (∀ n, s = GetevStep.sleepUs n → actual_min td mn ≠ 0) := by
  intro ins
  induction ins with
  | nil => intro td events s hs; exact absurd hs (List.not_mem_nil s)
  | cons i rest ih =>
    intro td events s hs
    rcases hreap : reap_cond td mn with _ | _
    · have hb : ∀ (rr : Int),
          (∀ g, GetevStep.blocking (actual_min td mn) rr = GetevStep.direct g → false = true) ∧
          (∀ am rr2, GetevStep.blocking (actual_min td mn) rr = GetevStep.blocking am rr2 →
            false = false ∧ am = actual_min td mn) ∧
          (∀ n, GetevStep.blocking (actual_min td mn) rr = GetevStep.sleepUs n →
            actual_min td mn ≠ 0) := by
        intro rr
        refine ⟨fun g h => GetevStep.noConfusion h, fun am rr2 h => ?_,
          fun n h => GetevStep.noConfusion h⟩
        injection h with h1 h2
        exact ⟨rfl, h1.symm⟩
      have hf :
          (∀ g, GetevStep.flush = GetevStep.direct g → false = true) ∧
          (∀ am rr2, GetevStep.flush = GetevStep.blocking am rr2 →
            false = false ∧ am = actual_min td mn) ∧
          (∀ n, GetevStep.flush = GetevStep.sleepUs n → actual_min td mn ≠ 0) :=
        ⟨fun g h => GetevStep.noConfusion h, fun am rr2 h => GetevStep.noConfusion h,
          fun n h => GetevStep.noConfusion h⟩
      have hsl : actual_min td mn ≠ 0 →
          (∀ g, GetevStep.sleepUs 10 = GetevStep.direct g → false = true) ∧
          (∀ am rr2, GetevStep.sleepUs 10 = GetevStep.blocking am rr2 →
            false = false ∧ am = actual_min td mn) ∧
          (∀ n, GetevStep.sleepUs 10 = GetevStep.sleepUs n → actual_min td mn ≠ 0) :=
        fun hc => ⟨fun g h => GetevStep.noConfusion h, fun am rr2 h => GetevStep.noConfusion h,
          fun n h => hc⟩
      simp only [getevents_loop, hreap, Bool.false_eq_true, if_false] at hs
      split_ifs at hs <;>
        simp only [List.cons_append, List.nil_append, List.mem_cons, List.mem_singleton] at hs <;>
        (repeat' rcases hs with rfl | hs) <;>
        (first
          | exact hb _
          | exact hf
          | exact hsl ‹actual_min td mn ≠ 0›
          | (have hx := ih td _ s hs; rwa [hreap] at hx)
          | (have hx := ih (fio_libaio_commit_run td i.commitTrace).td _ s hs;
             rwa [reap_cond_commit, actual_min_commit, hreap] at hx))
    · have hmagic := (uio_frame mx td.ld.ring).2.2.1
      have hd : ∀ (g : Nat),
          (∀ g2, GetevStep.direct g = GetevStep.direct g2 → true = true) ∧
          (∀ am rr2, GetevStep.direct g = GetevStep.blocking am rr2 →
            true = false ∧ am = actual_min td mn) ∧
          (∀ n, GetevStep.direct g = GetevStep.sleepUs n → actual_min td mn ≠ 0) :=
        fun g => ⟨fun g2 h => rfl, fun am rr2 h => GetevStep.noConfusion h,
          fun n h => GetevStep.noConfusion h⟩
      have hf :
          (∀ g, GetevStep.flush = GetevStep.direct g → true = true) ∧
          (∀ am rr2, GetevStep.flush = GetevStep.blocking am rr2 →
            true = false ∧ am = actual_min td mn) ∧
          (∀ n, GetevStep.flush = GetevStep.sleepUs n → actual_min td mn ≠ 0) :=
        ⟨fun g h => rfl, fun am rr2 h => GetevStep.noConfusion h,
          fun n h => GetevStep.noConfusion h⟩
      have hsl : actual_min td mn ≠ 0 →
          (∀ g, GetevStep.sleepUs 10 = GetevStep.direct g → true = true) ∧
          (∀ am rr2, GetevStep.sleepUs 10 = GetevStep.blocking am rr2 →
            true = false ∧ am = actual_min td mn) ∧
          (∀ n, GetevStep.sleepUs 10 = GetevStep.sleepUs n → actual_min td mn ≠ 0) :=
        fun hc => ⟨fun g h => rfl, fun am rr2 h => GetevStep.noConfusion h, fun n h => hc⟩
      simp only [getevents_loop, hreap, if_true] at hs
      split_ifs at hs <;>
        simp only [List.cons_append, List.nil_append, List.mem_cons, List.mem_singleton] at hs <;>
        (repeat' rcases hs with rfl | hs) <;>
        (first
          | exact hd _
          | exact hf
          | exact hsl ‹actual_min td mn ≠ 0›
          | (have hx := ih (set_ring td (user_io_getevents td.ld.ring mx).2) _ s hs;
             rwa [reap_cond_set_ring _ _ _ hmagic, actual_min_set_ring, hreap] at hx)
          | (have hx := ih (fio_libaio_commit_run
                (set_ring td (user_io_getevents td.ld.ring mx).2) i.commitTrace).td _ s hs;
             rwa [reap_cond_commit, actual_min_commit, reap_cond_set_ring _ _ _ hmagic,
               actual_min_set_ring, hreap] at hx))
theorem getev_ret (mn mx : Nat) : ∀ (ins : List GetevIn) (td : ThreadData) (events : Nat),
    ((getevents_loop td mn mx ins events).finished = true →
      (getevents_loop td mn mx ins events).lastr < 0 →
      (getevents_loop td mn mx ins events).ret = (getevents_loop td mn mx ins events).lastr) ∧
    ((getevents_loop td mn mx ins events).finished = true →
      0 ≤ (getevents_loop td mn mx ins events).lastr →
      (getevents_loop td mn mx ins events).ret =
        ((getevents_loop td mn mx ins events).events : Int)) := by
  intro ins
  induction ins with
  | nil =>
    intro td events
    refine ⟨fun h _ => ?_, fun h _ => ?_⟩ <;> simp [getevents_loop] at h
  | cons i rest ih =>
    intro td events
    rcases hreap : reap_cond td mn with _ | _ <;>
      simp only [getevents_loop, hreap, Bool.false_eq_true, if_false, if_true] <;>
      split_ifs <;>
      (try simp only) <;>
      (first
        | exact ih td _
        | exact ih (fio_libaio_commit_run td i.commitTrace).td _
        | exact ih (set_ring td (user_io_getevents td.ld.ring mx).2) _
        | exact ih (fio_libaio_commit_run
            (set_ring td (user_io_getevents td.ld.ring mx).2) i.commitTrace).td _
        | (refine ⟨fun hfin hl => ?_, fun hfin hl => ?_⟩ <;> (try split_ifs at hl ⊢) <;>
            first
              | trivial
              | omega))

theorem getev_min (mn mx : Nat) : ∀ (ins : List GetevIn) (td : ThreadData) (events : Nat),
    (getevents_loop td mn mx ins events).finished = true →
    0 ≤ (getevents_loop td mn mx ins events).ret →
    0 < mn →
    mn ≤ (getevents_loop td mn mx ins events).events ∧
    (getevents_loop td mn mx ins events).ret =
      ((getevents_loop td mn mx ins events).events : Int) := by
  intro ins
  induction ins with
  | nil =>
    intro td events h
    simp [getevents_loop] at h
  | cons i rest ih =>
    intro td events
    rcases hreap : reap_cond td mn with _ | _ <;>
      simp only [getevents_loop, hreap, Bool.false_eq_true, if_false, if_true] <;>
      split_ifs <;>
      (try simp only) <;>
      (first
        | exact ih td _
        | exact ih (fio_libaio_commit_run td i.commitTrace).td _
        | exact ih (set_ring td (user_io_getevents td.ld.ring mx).2) _
        | exact ih (fio_libaio_commit_run
            (set_ring td (user_io_getevents td.ld.ring mx).2) i.commitTrace).td _
        | (intro hfin hr hmn; (try split_ifs at hr ⊢) <;>
            exact ⟨by omega, by first | trivial | omega⟩))
/-- C3: for a request of length L resolved by the completion mapper: a reported
transfer equal to L clears the error and leaves zero residual; a reported
transfer r with 0 ≤ r < L records residual L − r and no error; a negative
reported result sets the error (to the errno magnitude) and leaves zero
residual. -/
theorem C3_completion_round_trip (L : Nat) (r : Int) (u : IoU)
    (hlen : u.xfer_buflen = L) (herr : u.error = 0) (hres : u.resid = 0)
    (hL : L < 2 ^ 63) :
    (r = (L : Int) →
      (fio_libaio_event (encode_res r) u).error = 0 ∧
      (fio_libaio_event (encode_res r) u).resid = 0) ∧
    (0 ≤ r → r < (L : Int) →
      (fio_libaio_event (encode_res r) u).resid = L - r.toNat ∧
      (fio_libaio_event (encode_res r) u).error = 0) ∧
    (-(2 ^ 31 : Int) < r → r < 0 →
      (fio_libaio_event (encode_res r) u).error = -r ∧
      (fio_libaio_event (encode_res r) u).resid = 0) := by
  have h64 : (2 : Int) ^ 64 = 18446744073709551616 := by norm_num
  have h63 : (2 : Nat) ^ 63 = 9223372036854775808 := by norm_num
  have h31 : (2 : Int) ^ 31 = 2147483648 := by norm_num
  rw [h63] at hL
  refine ⟨?_, ?_, ?_⟩
  · rintro rfl
    have henc : encode_res (L : Int) = L := by
      unfold encode_res
      rw [h64]
      omega
    unfold fio_libaio_event
    rw [henc, hlen]
    simp [herr, hres]
  · intro h0 hr
    have henc : encode_res r = r.toNat := by
      unfold encode_res
      rw [h64]
      omega
    have hlt : r.toNat < L := by omega
    unfold fio_libaio_event
    rw [henc, hlen]
    rw [if_pos (by omega), if_neg (by omega)]
    simp [herr]
  · intro hlo hhi
    have henc : encode_res r = (18446744073709551616 + r).toNat := by
      unfold encode_res
      rw [h64]
      omega
    have hbig : L < (18446744073709551616 + r).toNat := by
      rw [h31] at hlo
      omega
    unfold fio_libaio_event
    rw [henc, hlen]
    rw [if_pos (by omega), if_pos hbig]
    refine ⟨?_, by simp [hres]⟩
    show to_int32 (neg_u64 (18446744073709551616 + r).toNat) = -r
    have hneg : neg_u64 (18446744073709551616 + r).toNat = (-r).toNat := by
      unfold neg_u64
      have h64n : (2 : Nat) ^ 64 = 18446744073709551616 := by norm_num
      rw [h64n]
      omega
    rw [hneg]
    simp only [to_int32]
    have h32 : (2 : Nat) ^ 32 = 4294967296 := by norm_num
    have h31n : (2 : Nat) ^ 31 = 2147483648 := by norm_num
    have h32i : (2 : Int) ^ 32 = 4294967296 := by norm_num
    rw [h31] at hlo
    simp only [h32, h31n, h32i]
    split_ifs <;> omega
/-- C3 witness: concrete full, short and failed transfers of a 4096-byte read. -/
theorem C3_completion_round_trip_witness :
    ((fio_libaio_event (encode_res 4096) uRead).error = 0 ∧
      (fio_libaio_event (encode_res 4096) uRead).resid = 0) ∧
    ((fio_libaio_event (encode_res 1000) uRead).resid = 3096 ∧
      (fio_libaio_event (encode_res 1000) uRead).error = 0) ∧
    ((fio_libaio_event (encode_res (-5)) uRead).error = 5 ∧
      (fio_libaio_event (encode_res (-5)) uRead).resid = 0) := by
  have h1 := (C3_completion_round_trip 4096 4096 uRead rfl rfl rfl (by norm_num)).1 rfl
  have h2 := (C3_completion_round_trip 4096 1000 uRead rfl rfl rfl (by norm_num)).2.1
    (by decide) (by decide)
  have h3 := (C3_completion_round_trip 4096 (-5) uRead rfl rfl rfl (by norm_num)).2.2
    (by decide) (by decide)
  exact ⟨h1, ⟨h2.1, h2.2⟩, ⟨h3.1, h3.2⟩⟩
/-- C1 counterexample: at queued = 0 < capacity = 4, enqueueing a trim request
returns Completed without storing a descriptor or incrementing `queued`,
refuting the claim that every enqueue below capacity stores at `head` and
increments `queued`. -/
theorem C1_counterexample :
    tdInit.ld.queued < tdInit.o_iodepth ∧
    (fio_libaio_queue tdInit uTrim).status ≠ FioQStatus.FIO_Q_QUEUED ∧
    (fio_libaio_queue tdInit uTrim).td.ld.queued ≠ tdInit.ld.queued + 1 ∧
    (fio_libaio_queue tdInit uTrim).td.ld.head = tdInit.ld.head := by
  refine ⟨by decide, by decide, by decide, rfl⟩

/-- C1 (amended): over any sequence of enqueues `queued` never exceeds the
iodepth fixed at initialization; an enqueue at `queued == iodepth` returns
Busy leaving the state untouched; an enqueue of a read or write below
capacity stores the descriptor at `head`, advances `head` by one modulo
capacity (computed by `ring_inc`, AND or modulus), and increments `queued`;
sync and trim enqueues are covered by C4 instead. -/
theorem C1_ring_enqueue (td : ThreadData) (io_u : IoU) (ios : List IoU)
    (hinv : LdInv td.ld) (hcap : td.ld.queued ≤ td.o_iodepth) :
    ((fio_libaio_queue_seq td ios).o_iodepth = td.o_iodepth ∧
      (fio_libaio_queue_seq td ios).ld.queued ≤ td.o_iodepth) ∧
    (td.ld.queued = td.o_iodepth →
      (fio_libaio_queue td io_u).status = FioQStatus.FIO_Q_BUSY ∧
      (fio_libaio_queue td io_u).td = td) ∧
    (td.ld.queued < td.o_iodepth →
      (io_u.ddir = DDir.DDIR_READ ∨ io_u.ddir = DDir.DDIR_WRITE) →
      (fio_libaio_queue td io_u).status = FioQStatus.FIO_Q_QUEUED ∧
      (fio_libaio_queue td io_u).td.ld.io_us td.ld.head = some io_u.index ∧
      (fio_libaio_queue td io_u).td.ld.iocbs td.ld.head =
        some (if td.eo.useriocb then IocbRef.userIndex io_u.index
              else IocbRef.iocbOf io_u.index) ∧
      (fio_libaio_queue td io_u).td.ld.head = ring_inc td.ld td.ld.head 1 ∧
      (fio_libaio_queue td io_u).td.ld.head = (td.ld.head + 1) % td.ld.entries ∧
      (fio_libaio_queue td io_u).td.ld.queued = td.ld.queued + 1 ∧
      (fio_libaio_queue td io_u).td.ld.tail = td.ld.tail) := by
  refine ⟨queue_seq_spec ios td hcap, ?_, ?_⟩
  · intro hfull
    simp only [fio_libaio_queue]
    rw [if_pos hfull]
    exact ⟨rfl, rfl⟩
  · intro hlt hdir
    have hne : ¬td.ld.queued = td.o_iodepth := by omega
    have hnsync : ddir_sync io_u.ddir = false := by
      rcases hdir with h | h <;> rw [h] <;> rfl
    have hntrim : ¬io_u.ddir = DDir.DDIR_TRIM := by
      rcases hdir with h | h <;> rw [h] <;> exact fun hc => DDir.noConfusion hc
    simp only [fio_libaio_queue]
    rw [if_neg hne, hnsync, if_neg (by simp), if_neg hntrim]
    refine ⟨rfl, ?_, ?_, rfl, ?_, rfl, rfl⟩
    · simp [setSlot]
    · simp [setSlot]
    · exact ring_inc_mod td.ld hinv.2.2.2 td.ld.head 1
  
/-- C1 witness: a read enqueued on the freshly initialized engine is stored at
slot 0 and advances `head` to 1, with `queued` rising to 1. -/
theorem C1_ring_enqueue_witness :
    (fio_libaio_queue tdInit uRead).status = FioQStatus.FIO_Q_QUEUED ∧
    (fio_libaio_queue tdInit uRead).td.ld.io_us tdInit.ld.head = some uRead.index ∧
    (fio_libaio_queue tdInit uRead).td.ld.queued = tdInit.ld.queued + 1 ∧
    (fio_libaio_queue tdInit uRead).td.ld.head = (tdInit.ld.head + 1) % tdInit.ld.entries := by
  have h := (C1_ring_enqueue tdInit uRead []
    ⟨by decide, by decide, by decide, fun _ => ⟨2, rfl⟩⟩ (by decide)).2.2
    (by decide) (Or.inl rfl)
  exact ⟨h.1, h.2.1, h.2.2.2.2.2.1, h.2.2.2.2.1⟩

/-- C4: a sync or trim enqueue is Busy (with no side effect) whenever any
asynchronous item is still queued; it is accepted only at `queued == 0`, and
an accepted one completes inline during the call (logging its synchronous
actions) without touching `head`, `tail` or `queued`. -/
theorem C4_sync_trim_serialized (td : ThreadData) (u : IoU)
    (hd : ddir_sync u.ddir = true ∨ u.ddir = DDir.DDIR_TRIM) :
    (td.ld.queued ≠ 0 →
      (fio_libaio_queue td u).status = FioQStatus.FIO_Q_BUSY ∧
      (fio_libaio_queue td u).td = td ∧
      (fio_libaio_queue td u).acts = []) ∧
    ((fio_libaio_queue td u).status = FioQStatus.FIO_Q_COMPLETED → td.ld.queued = 0) ∧
    (td.ld.queued = 0 → td.o_iodepth ≠ 0 →
      (fio_libaio_queue td u).status = FioQStatus.FIO_Q_COMPLETED ∧
      (fio_libaio_queue td u).td = td ∧
      (fio_libaio_queue td u).acts =
        (if ddir_sync u.ddir then [EngAction.doSync]
         else [EngAction.doTrim, EngAction.markSubmit 1, EngAction.markComplete 1])) := by
  refine ⟨?_, ?_, ?_⟩
  · intro hq
    simp only [fio_libaio_queue]
    split_ifs <;> first
      | exact ⟨rfl, rfl, rfl⟩
      | (exact absurd (by assumption) hq)
      | (rcases hd with h | h <;> simp_all)
  · intro hst
    by_contra hq
    revert hst
    simp only [fio_libaio_queue]
    split_ifs <;> first
      | (intro h; exact FioQStatus.noConfusion h)
      | (exact absurd (by assumption) hq)
      | (rcases hd with h | h <;> simp_all)
  · intro hq hdep
    have hne : ¬td.ld.queued = td.o_iodepth := by omega
    rcases hd with h | h
    · simp only [fio_libaio_queue]
      rw [if_neg hne, h, if_pos rfl, if_neg (by omega)]
      exact ⟨rfl, rfl, rfl⟩
    · have hnsync : ddir_sync u.ddir = false := by rw [h]; rfl
      simp only [fio_libaio_queue]
      rw [if_neg hne, hnsync, if_neg (by simp), if_pos h, if_neg (by omega)]
      exact ⟨rfl, rfl, rfl⟩

/-- C4 witness: a sync on the empty engine completes inline with no state
change, and on the engine with one queued read it is Busy. -/
theorem C4_sync_trim_serialized_witness :
    ((fio_libaio_queue tdInit uSync).status = FioQStatus.FIO_Q_COMPLETED ∧
      (fio_libaio_queue tdInit uSync).td = tdInit ∧
      (fio_libaio_queue tdInit uSync).acts = [EngAction.doSync]) ∧
    (fio_libaio_queue tdOne uSync).status = FioQStatus.FIO_Q_BUSY := by
  constructor
  · have h := (C4_sync_trim_serialized tdInit uSync (Or.inl rfl)).2.2 rfl (by decide)
    exact ⟨h.1, h.2.1, h.2.2⟩
  · exact ((C4_sync_trim_serialized tdOne uSync (Or.inl rfl)).1 (by decide)).1
/-- C2: commit with nothing queued is a no-op returning success; every
submission attempt covers the contiguous batch starting at `tail` of length
min(queued, capacity − tail), never wrapping; over the whole run
queued_before = queued_after + submitted and `tail` advances by exactly the
submitted count modulo capacity; a single successful submission of n items
decreases `queued` by n and advances `tail` by n modulo capacity. -/
theorem C2_commit_submits (td : ThreadData) (trace : List (Int × Nat))
    (hinv : LdInv td.ld) (hvalid : (fio_libaio_commit_run td trace).valid = true) :
    (td.ld.queued = 0 →
      fio_libaio_commit_run td trace = ⟨0, td, 0, [], true, true⟩) ∧
    (∀ a ∈ (fio_libaio_commit_run td trace).log,
      a.nr = min a.queuedAt (td.ld.entries - a.tailAt) ∧
      a.tailAt + a.nr ≤ td.ld.entries ∧ 0 < a.queuedAt) ∧
    td.ld.queued =
      (fio_libaio_commit_run td trace).td.ld.queued +
        (fio_libaio_commit_run td trace).submitted ∧
    (fio_libaio_commit_run td trace).td.ld.tail =
      (td.ld.tail + (fio_libaio_commit_run td trace).submitted) % td.ld.entries ∧
    (∀ (r : Int) (now : Nat), 0 < r →
      r.toNat ≤ min td.ld.queued (td.ld.entries - td.ld.tail) →
      (commit_loop td [(r, now)] none).td.ld.queued = td.ld.queued - r.toNat ∧
      (commit_loop td [(r, now)] none).td.ld.tail =
        (td.ld.tail + r.toNat) % td.ld.entries ∧
      (commit_loop td [(r, now)] none).submitted = r.toNat) := by
  have hone : ∀ (r : Int) (now : Nat), 0 < r →
      r.toNat ≤ min td.ld.queued (td.ld.entries - td.ld.tail) →
      (commit_loop td [(r, now)] none).td.ld.queued = td.ld.queued - r.toNat ∧
      (commit_loop td [(r, now)] none).td.ld.tail =
        (td.ld.tail + r.toNat) % td.ld.entries ∧
      (commit_loop td [(r, now)] none).submitted = r.toNat := by
    intro r now hr hb
    simp only [commit_loop]
    rw [if_pos hr]
    have htl : (advance td r.toNat).ld.tail = (td.ld.tail + r.toNat) % td.ld.entries := by
      rw [advance_tail]
      exact ring_inc_mod td.ld hinv.2.2.2 td.ld.tail r.toNat
    split_ifs
    · exact ⟨by rw [advance_queued], by rw [htl], rfl⟩
    · exact ⟨by rw [advance_queued], by rw [htl], rfl⟩
  by_cases hq : td.ld.queued = 0
  · have hrun : fio_libaio_commit_run td trace = ⟨0, td, 0, [], true, true⟩ := by
      unfold fio_libaio_commit_run
      rw [if_pos hq]
    refine ⟨fun _ => hrun, ?_, ?_, ?_, hone⟩
    · rw [hrun]
      intro a ha
      exact absurd ha (List.not_mem_nil a)
    · rw [hrun]
      rfl
    · rw [hrun]
      have h3 := hinv.2.2.1
      exact (Nat.mod_eq_of_lt (by omega : td.ld.tail + 0 < td.ld.entries)).symm
  · have hrun : fio_libaio_commit_run td trace = commit_loop td trace none := by
      unfold fio_libaio_commit_run
      rw [if_neg hq]
    rw [hrun] at hvalid ⊢
    refine ⟨fun h => absurd h hq, ?_, ?_, ?_, hone⟩
    · intro a ha
      have := commit_loop_log trace td none (by omega) hinv a ha
      exact ⟨this.1, this.2.1, this.2.2.2⟩
    · exact commit_loop_conserve trace td none hvalid
    · exact commit_loop_tail trace td none hinv hvalid

/-- C2 witness: draining the full four-deep ring in two submissions of two
conserves `queued` and advances `tail` back to 0 modulo 4. -/
theorem C2_commit_submits_witness :
    tdFour.ld.queued =
      (fio_libaio_commit_run tdFour [(2, 0), (2, 0)]).td.ld.queued +
        (fio_libaio_commit_run tdFour [(2, 0), (2, 0)]).submitted ∧
    (fio_libaio_commit_run tdFour [(2, 0), (2, 0)]).td.ld.tail =
      (tdFour.ld.tail + (fio_libaio_commit_run tdFour [(2, 0), (2, 0)]).submitted) %
        tdFour.ld.entries := by
  have h := C2_commit_submits tdFour [(2, 0), (2, 0)]
    ⟨by decide, by decide, by decide, fun _ => ⟨2, rfl⟩⟩ (by decide)
  exact ⟨h.2.2.1, h.2.2.2.1⟩

/-- C5: evaluation at the failing input.  With nothing queued, commit returns
success immediately without attempting any submission, even though the
environment would report would-block for 31 simulated seconds; and the submit
loop body itself, entered at queued = 0 with would-block persisting at
timestamps 0 ms and 31000 ms, exits with -EAGAIN after a single attempt
instead of spinning through the 30-second stall budget. -/
theorem C5_stall_path_evaluation :
    tdInit.ld.queued = 0 ∧
    fio_libaio_commit_run tdInit [(-EAGAIN, 0), (-EAGAIN, 31000)] =
      ⟨0, tdInit, 0, [], true, true⟩ ∧
    (commit_loop tdInit [(-EAGAIN, 0), (-EAGAIN, 31000)] none).ret = -EAGAIN ∧
    (commit_loop tdInit [(-EAGAIN, 0), (-EAGAIN, 31000)] none).log.length = 1 ∧
    (commit_loop tdInit [(-EAGAIN, 0), (-EAGAIN, 31000)] none).finished = true := by
  exact ⟨rfl, rfl, by decide, rfl, rfl⟩
/-- C6 counterexample: with min = 2 and max = 2, two partial blocking results
of 1 and 2 accumulate to a return of 3 > max, refuting "returns between 0 and
max"; and with min = 0, a zero result returns immediately without flushing
even though one submission is still queued, refuting "a zero-result ...
triggers an opportunistic flush". -/
theorem C6_counterexample :
    (fio_libaio_getevents_run tdInit 2 2 [⟨1, []⟩, ⟨2, []⟩]).ret = 3 ∧
    (fio_libaio_getevents_run tdInit 2 2 [⟨1, []⟩, ⟨2, []⟩]).events = 3 ∧
    (fio_libaio_getevents_run tdInit 2 2 [⟨1, []⟩, ⟨2, []⟩]).finished = true ∧
    tdOne.ld.queued = 1 ∧
    (fio_libaio_getevents_run tdOne 0 4 [⟨0, []⟩]).log = [GetevStep.blocking 0 0] ∧
    (fio_libaio_getevents_run tdOne 0 4 [⟨0, []⟩]).ret = 0 := by
  exact ⟨by decide, rfl, rfl, rfl, by decide, by decide⟩

/-- C6 (amended): each blocking retrieval uses the actual minimum (0 unless
the batch-completion threshold is nonzero, else min); a finished run with a
nonnegative return and min > 0 has accumulated at least min events and
returns the accumulated count (which can exceed max across partial
retrievals); a finished run whose last attempt was negative returns that
error; a brief sleep happens only when the actual minimum is nonzero; a
zero-result while min > 0 or a would-block outcome flushes queued submissions
through commit and retries; an interrupted attempt simply retries; any other
negative result stops the loop and is returned. -/
theorem C6_getevents_behavior (td : ThreadData) (mn mx : Nat) (ins : List GetevIn) :
    (∀ s ∈ (fio_libaio_getevents_run td mn mx ins).log, ∀ am rr,
      s = GetevStep.blocking am rr → am = actual_min td mn) ∧
    ((fio_libaio_getevents_run td mn mx ins).finished = true →
      0 ≤ (fio_libaio_getevents_run td mn mx ins).ret → 0 < mn →
      mn ≤ (fio_libaio_getevents_run td mn mx ins).events ∧
      (fio_libaio_getevents_run td mn mx ins).ret =
        ((fio_libaio_getevents_run td mn mx ins).events : Int)) ∧
    ((fio_libaio_getevents_run td mn mx ins).finished = true →
      (fio_libaio_getevents_run td mn mx ins).lastr < 0 →
      (fio_libaio_getevents_run td mn mx ins).ret =
        (fio_libaio_getevents_run td mn mx ins).lastr) ∧
    (∀ s ∈ (fio_libaio_getevents_run td mn mx ins).log, ∀ n,
      s = GetevStep.sleepUs n → actual_min td mn ≠ 0) ∧
    (∀ i rest, reap_cond td mn = false →
      ((mn ≠ 0 ∧ i.r = 0) ∨ i.r = -EAGAIN) → 0 < mn →
      getevents_loop td mn mx (i :: rest) 0 =
        ⟨(getevents_loop (fio_libaio_commit_run td i.commitTrace).td mn mx rest 0).ret,
         (getevents_loop (fio_libaio_commit_run td i.commitTrace).td mn mx rest 0).events,
         (getevents_loop (fio_libaio_commit_run td i.commitTrace).td mn mx rest 0).td,
         (if actual_min td mn ≠ 0 then
            [GetevStep.blocking (actual_min td mn) i.r, GetevStep.flush, GetevStep.sleepUs 10]
          else [GetevStep.blocking (actual_min td mn) i.r, GetevStep.flush]) ++
           (getevents_loop (fio_libaio_commit_run td i.commitTrace).td mn mx rest 0).log,
         (getevents_loop (fio_libaio_commit_run td i.commitTrace).td mn mx rest 0).finished,
         (getevents_loop (fio_libaio_commit_run td i.commitTrace).td mn mx rest 0).lastr⟩) ∧
    (∀ i rest, reap_cond td mn = false → i.r = -EINTR → 0 < mn →
      getevents_loop td mn mx (i :: rest) 0 =
        ⟨(getevents_loop td mn mx rest 0).ret, (getevents_loop td mn mx rest 0).events,
         (getevents_loop td mn mx rest 0).td,
         GetevStep.blocking (actual_min td mn) i.r :: (getevents_loop td mn mx rest 0).log,
         (getevents_loop td mn mx rest 0).finished, (getevents_loop td mn mx rest 0).lastr⟩) ∧
    (∀ i rest, reap_cond td mn = false → i.r < 0 → i.r ≠ -EAGAIN → i.r ≠ -EINTR →
      getevents_loop td mn mx (i :: rest) 0 =
        ⟨i.r, 0, td, [GetevStep.blocking (actual_min td mn) i.r], true, i.r⟩) := by
  have hE : EAGAIN = (11 : Int) := rfl
  have hI : EINTR = (4 : Int) := rfl
  refine ⟨?_, getev_min mn mx ins td 0, fun hf hl => (getev_ret mn mx ins td 0).1 hf hl,
    ?_, ?_, ?_, ?_⟩
  · intro s hs am rr hblk
    exact (((getev_log mn mx ins td 0 s hs).2.1) am rr hblk).2
  · intro s hs n hsl
    exact ((getev_log mn mx ins td 0 s hs).2.2) n hsl
  · intro i rest hreap hcond hmn
    have hrneg : ¬(0 : Int) < i.r := by omega
    simp only [getevents_loop, hreap, Bool.false_eq_true, if_false]
    rw [if_neg hrneg, if_pos hcond, if_pos (by omega : (0 : Nat) < mn)]
  · intro i rest hreap hintr hmn
    have hrneg : ¬(0 : Int) < i.r := by omega
    have hnc : ¬((mn ≠ 0 ∧ i.r = 0) ∨ i.r = -EAGAIN) := by omega
    simp only [getevents_loop, hreap, Bool.false_eq_true, if_false]
    rw [if_neg hrneg, if_neg hnc, if_neg (by omega : ¬i.r ≠ -EINTR),
      if_pos (by omega : (0 : Nat) < mn)]
  · intro i rest hreap hneg hna hni
    have hrneg : ¬(0 : Int) < i.r := by omega
    have hnc : ¬((mn ≠ 0 ∧ i.r = 0) ∨ i.r = -EAGAIN) := by omega
    simp only [getevents_loop, hreap, Bool.false_eq_true, if_false]
    rw [if_neg hrneg, if_neg hnc, if_pos (by omega : i.r ≠ -EINTR),
      if_pos (by omega : i.r < 0)]

/-- C6 witness: a single blocking retrieval of two events with min = 2 and
max = 4 finishes with at least min accumulated, returning the count. -/
theorem C6_getevents_behavior_witness :
    2 ≤ (fio_libaio_getevents_run tdInit 2 4 [⟨2, []⟩]).events ∧
    (fio_libaio_getevents_run tdInit 2 4 [⟨2, []⟩]).ret =
      ((fio_libaio_getevents_run tdInit 2 4 [⟨2, []⟩]).events : Int) :=
  (C6_getevents_behavior tdInit 2 4 [⟨2, []⟩]).2.1 rfl (by decide) (by decide)

/-- C7 counterexample: with userspace reaping on, a zero batch-completion
threshold and the recognized ring magic, a call with min = 1 (nonzero) still
uses the direct ring read, refuting "only when the minimum requested is
zero". -/
theorem C7_counterexample :
    tdReap.eo.userspace_reap = 1 ∧
    tdReap.o_batch_complete_min = 0 ∧
    tdReap.ld.ring.magic = AIO_RING_MAGIC ∧
    (1 : Nat) ≠ 0 ∧
    (fio_libaio_getevents_run tdReap 1 4 [⟨0, []⟩]).log = [GetevStep.direct 3] ∧
    (fio_libaio_getevents_run tdReap 1 4 [⟨0, []⟩]).ret = 3 := by
  exact ⟨rfl, rfl, rfl, by decide, by decide, by decide⟩

/-- C7 (amended): the direct ring read is used only when the userspace-reap
option is on, the ACTUAL minimum (0 unless the batch-completion threshold is
nonzero, else min) is zero, and the shared ring carries the recognized magic;
otherwise every retrieval in the loop is the blocking call; a direct read
returns at most max records, copies exactly the slots from the shared head
onwards while the head differs from the tail, and advances the shared head by
one modulo the ring size per copied slot. -/
theorem C7_userspace_reap_gating (td : ThreadData) (mn mx : Nat) (ins : List GetevIn)
    (ring : AioRing) :
    (reap_cond td mn = true ↔
      (td.eo.userspace_reap = 1 ∧ actual_min td mn = 0 ∧
        td.ld.ring.magic = AIO_RING_MAGIC)) ∧
    (reap_cond td mn = false →
      ∀ s ∈ (fio_libaio_getevents_run td mn mx ins).log, ∀ g, s ≠ GetevStep.direct g) ∧
    (reap_cond td mn = true →
      ∀ s ∈ (fio_libaio_getevents_run td mn mx ins).log, ∀ am rr,
        s ≠ GetevStep.blocking am rr) ∧
    (user_io_getevents ring mx).1.length ≤ mx ∧
    (0 < ring.nr → ring.head < ring.nr →
      (user_io_getevents ring mx).1 =
        (List.range (user_io_getevents ring mx).1.length).map
          (fun j => ring.events ((ring.head + j) % ring.nr)) ∧
      (user_io_getevents ring mx).2.head =
        (ring.head + (user_io_getevents ring mx).1.length) % ring.nr) ∧
    ((user_io_getevents ring mx).1.length < mx →
      (user_io_getevents ring mx).2.head = ring.tail) := by
  refine ⟨?_, ?_, ?_, uio_len_le mx ring,
    fun h1 h2 => ⟨uio_content mx ring h1 h2, uio_head_mod mx ring h1 h2⟩, uio_stop mx ring⟩
  · unfold reap_cond
    simp only [Bool.and_eq_true, beq_iff_eq]
    tauto
  · intro hreap s hs g hdir
    have := ((getev_log mn mx ins td 0 s hs).1) g hdir
    rw [hreap] at this
    exact Bool.noConfusion this
  · intro hreap s hs am rr hblk
    have := (((getev_log mn mx ins td 0 s hs).2.1) am rr hblk).1
    rw [hreap] at this
    exact Bool.noConfusion this

/-- C7 witness: the concrete shared ring holds three pending completions; a
direct read with max = 4 returns them and advances the shared head to the
shared tail; and with userspace reaping off every step of a concrete run is a
blocking call, never a direct read. -/
theorem C7_userspace_reap_gating_witness :
    (user_io_getevents cexRing 4).1.length ≤ 4 ∧
    (user_io_getevents cexRing 4).2.head = (cexRing.head + 3) % cexRing.nr ∧
    (user_io_getevents cexRing 4).2.head = cexRing.tail ∧
    (∀ s ∈ (fio_libaio_getevents_run tdInit 1 4 [⟨1, []⟩]).log, ∀ g,
      s ≠ GetevStep.direct g) := by
  have h := C7_userspace_reap_gating tdInit 1 4 [⟨1, []⟩] cexRing
  refine ⟨h.2.2.2.1, ?_, h.2.2.2.2.2 (by decide), h.2.1 (by decide)⟩
  have hm := (h.2.2.2.2.1 (by decide) (by decide)).2
  exact hm.trans (by decide)
/-- C8: if any of the polled-completion, user-descriptor or fixed-buffer
feature flags is requested and the flag-carrying context-setup syscall does
not succeed (it is unavailable or returns an error), context creation returns
the capability error 1 before ever creating an unflagged context, and
post-initialization reports failure. -/
theorem C8_capability_error (o : LibaioOptions) (setup2_res : Option Int) (ioqres : Int)
    (hflag : o.hipri = true ∨ o.useriocb = true ∨ o.fixedbufs = true)
    (hns : setup2_res ≠ some 0) :
    fio_libaio_queue_init setup2_res o.hipri o.useriocb o.fixedbufs ioqres = 1 ∧
    fio_libaio_post_init o setup2_res ioqres = 1 := by
  have hold : fio_libaio_old_queue_init o.hipri o.useriocb o.fixedbufs ioqres = 1 := by
    unfold fio_libaio_old_queue_init
    split_ifs <;> first
      | rfl
      | (rcases hflag with h | h | h <;> simp_all)
  have hq : fio_libaio_queue_init setup2_res o.hipri o.useriocb o.fixedbufs ioqres = 1 := by
    unfold fio_libaio_queue_init
    cases setup2_res with
    | none => exact hold
    | some r =>
      show (if r = 0 then (0 : Int)
        else fio_libaio_old_queue_init o.hipri o.useriocb o.fixedbufs ioqres) = 1
      rw [if_neg (fun hr => hns (by rw [hr]))]
      exact hold
  refine ⟨hq, ?_⟩
  unfold fio_libaio_post_init
  rw [hq]
  rfl

/-- C8 witness: requesting polled completions on a platform without the
flag-carrying setup syscall fails initialization. -/
theorem C8_capability_error_witness :
    fio_libaio_queue_init none true false false 0 = 1 ∧
    fio_libaio_post_init ⟨0, true, false, false⟩ none 0 = 1 :=
  C8_capability_error ⟨0, true, false, false⟩ none 0 (Or.inl rfl) (by decide)

/-- C9: when the reap loop finishes, a negative last retrieval result is
returned as-is even if earlier iterations had already accumulated completion
records; the accumulated count is returned only when the last attempt was
nonnegative. -/
theorem C9_negative_result_return (td : ThreadData) (mn mx : Nat) (ins : List GetevIn)
    (hfin : (fio_libaio_getevents_run td mn mx ins).finished = true) :
    ((fio_libaio_getevents_run td mn mx ins).lastr < 0 →
      (fio_libaio_getevents_run td mn mx ins).ret =
        (fio_libaio_getevents_run td mn mx ins).lastr) ∧
    (0 ≤ (fio_libaio_getevents_run td mn mx ins).lastr →
      (fio_libaio_getevents_run td mn mx ins).ret =
        ((fio_libaio_getevents_run td mn mx ins).events : Int)) :=
  ⟨fun h => (getev_ret mn mx ins td 0).1 hfin h,
   fun h => (getev_ret mn mx ins td 0).2 hfin h⟩

/-- C9 witness: a run that accumulates one record and then hits error -5
returns -5, discarding the accumulated count of 1. -/
theorem C9_negative_result_return_witness :
    (fio_libaio_getevents_run tdInit 2 4 [⟨1, []⟩, ⟨-5, []⟩]).ret = -5 ∧
    (fio_libaio_getevents_run tdInit 2 4 [⟨1, []⟩, ⟨-5, []⟩]).events = 1 := by
  have h := (C9_negative_result_return tdInit 2 4 [⟨1, []⟩, ⟨-5, []⟩] (by decide)).1 (by decide)
  exact ⟨h.trans (by decide), rfl⟩

/-- C10: with a positive capacity, ring increments stay below `entries`
(AND with `entries − 1` or modulus), the invariant head < entries ∧
tail < entries is established by initialization and preserved by enqueue and
commit, an enqueue writes only slot `head`, and every commit batch satisfies
tailAt + nr ≤ entries, so all accesses stay inside the `entries`-sized
arrays. -/
theorem C10_ring_index_bounds (td : ThreadData) (u : IoU) (trace : List (Int × Nat))
    (iodepth batch_min : Nat) (o : LibaioOptions) (rg : AioRing)
    (hinv : LdInv td.ld) (hdep : 1 ≤ iodepth) :
    (∀ v a, ring_inc td.ld v a < td.ld.entries) ∧
    LdInv (fio_libaio_queue td u).td.ld ∧
    (td.ld.head < td.ld.entries ∧
      ∀ j, j ≠ td.ld.head →
        (fio_libaio_queue td u).td.ld.io_us j = td.ld.io_us j ∧
        (fio_libaio_queue td u).td.ld.iocbs j = td.ld.iocbs j) ∧
    LdInv (fio_libaio_commit_run td trace).td.ld ∧
    (∀ a ∈ (fio_libaio_commit_run td trace).log,
      a.tailAt < td.ld.entries ∧ a.tailAt + a.nr ≤ td.ld.entries) ∧
    LdInv (fio_libaio_init iodepth batch_min o rg).ld := by
  refine ⟨fun v a => ring_inc_lt td.ld hinv.1 v a, queue_inv td u hinv, ⟨hinv.2.1, ?_⟩,
    ?_, ?_, fio_libaio_init_inv iodepth batch_min o rg (by omega)⟩
  · intro j hj
    simp only [fio_libaio_queue]
    split_ifs <;> first
      | exact ⟨rfl, rfl⟩
      | (exact ⟨by simp [setSlot, hj], by simp [setSlot, hj]⟩)
  · unfold fio_libaio_commit_run
    split
    · exact hinv
    · exact commit_loop_inv trace td none hinv
  · unfold fio_libaio_commit_run
    split
    · intro a ha
      exact absurd ha (List.not_mem_nil a)
    · intro a ha
      next hq =>
        have := commit_loop_log trace td none (by omega) hinv a ha
        exact ⟨this.2.2.1, this.2.1⟩

/-- C10 witness: on the freshly initialized engine of capacity 4, ring
increments stay below 4, an enqueue leaves slot 3 untouched, and the two
concrete submit batches stay inside the arrays. -/
theorem C10_ring_index_bounds_witness :
    ring_inc tdInit.ld 3 1 < tdInit.ld.entries ∧
    (fio_libaio_queue tdInit uRead).td.ld.io_us 3 = tdInit.ld.io_us 3 ∧
    LdInv (fio_libaio_commit_run tdInit []).td.ld ∧
    LdInv (fio_libaio_init 4 0 plainOpts cexRing).ld := by
  have h := C10_ring_index_bounds tdInit uRead [] 4 0 plainOpts cexRing
    ⟨by decide, by decide, by decide, fun _ => ⟨2, rfl⟩⟩ (by decide)
  exact ⟨h.1 3 1, (h.2.2.1.2 3 (by decide)).1, h.2.2.2.1, h.2.2.2.2.2⟩
end Libaio
